import Mathlib

/-!
# Collaborative Canvas — verification of the server-side synchronization core

Shallow embedding of the repository's server code:

* `DrawingStateManager` (`server/drawing-state.js`): the per-room stroke
  timeline store with per-user undo stacks.
* `RoomManager` (`server/rooms.js`): room membership and per-room color
  allocation over the fixed 10-color palette `USER_COLORS`.
* The Socket.io event handlers of the main server file (`server.js`):
  `join-room`, `stroke-start`, `stroke-update`, `stroke-end`, `undo`,
  `redo`, `disconnect` — modelled as pure state-passing functions that also
  return the event they would broadcast (when they broadcast one).

JavaScript `Map` objects are embedded as association lists with
insertion-order semantics: `Map.set` overwrites in place, `Map.delete`
removes the (unique) entry, `Map.get` is `lookupA`.  JavaScript `Set`
objects of strings are embedded as duplicate-free lists with insertion
order (`insertSet`, `List.erase`).

Stroke identifiers: the source mints `stroke_${++counter}_${Date.now()}`,
which is injective in the counter (the counter segment is delimited), so we
embed a stroke id by its counter value (a `Nat`).  User identifiers are
minted as `user_${++counter}_${Date.now()}`; we embed them as the string
`"user_" ++ toString counter`, which is likewise injective.
-/

/-- JavaScript `Map.get` on an association list. -/
def lookupA {β : Type} : List (String × β) → String → Option β
  | [], _ => none
  | (k, v) :: rest, key => if k = key then some v else lookupA rest key

/-- JavaScript `Map.set` on an association list: overwrite in place if the
key is present (preserving insertion order), otherwise append. -/
def setA {β : Type} : List (String × β) → String → β → List (String × β)
  | [], key, v => [(key, v)]
  | (k, w) :: rest, key, v =>
      if k = key then (key, v) :: rest else (k, w) :: setA rest key v

/-- JavaScript `Map.delete` on an association list: remove the first entry
with the given key (keys are unique, since `setA` never duplicates). -/
def delA {β : Type} : List (String × β) → String → List (String × β)
  | [], _ => []
  | (k, w) :: rest, key => if k = key then rest else (k, w) :: delA rest key

/-- JavaScript `Set.add` on a duplicate-free list: append if absent. -/
def insertSet (l : List String) (x : String) : List String :=
  if x ∈ l then l else l ++ [x]

/-- A 2-D point `{x, y}`. -/
structure Point where
  x : Int
  y : Int
deriving DecidableEq, Repr

/-- A completed stroke object as stored by the server
(`drawing-state.js`, `addStroke`): durable id (the counter of
`stroke_${counter}_${ts}`), owning user id, timestamp, kind, color (absent
for erase strokes), brush size, and the ordered point path. -/
structure Stroke where
  id : Nat
  userId : String
  timestamp : Nat
  type : String
  color : Option String
  size : Nat
  path : List Point
deriving DecidableEq, Repr

/-- The `strokeData` argument of `addStroke`: the fields the `stroke-start`
handler passes in.  `timestamp` and `type` may be absent (JS `undefined`). -/
structure StrokeData where
  userId : String
  timestamp : Option Nat
  type : Option String
  color : Option String
  size : Nat
  path : List Point
deriving DecidableEq, Repr

/-- JS `v || dflt` for a possibly-missing number (`0` is falsy). -/
def jsOrNat (v : Option Nat) (dflt : Nat) : Nat :=
  match v with
  | some t => if t = 0 then dflt else t
  | none => dflt

/-- JS `v || dflt` for a possibly-missing string (`""` is falsy). -/
def jsOrStr (v : Option String) (dflt : String) : String :=
  match v with
  | some t => if t = "" then dflt else t
  | none => dflt

/-- Per-room state of the drawing store:
`{ strokes: Array, undoStacks: Map<userId, Array> }`. -/
structure RoomState where
  strokes : List Stroke
  undoStacks : List (String × List Stroke)
deriving DecidableEq, Repr

/-- The `DrawingStateManager`: `roomStates : Map<roomId, RoomState>` and the
stroke id counter. -/
structure DrawingState where
  roomStates : List (String × RoomState)
  strokeIdCounter : Nat
deriving DecidableEq, Repr

/-- A fresh `DrawingStateManager` (constructor). -/
def initDS : DrawingState :=
  { roomStates := [], strokeIdCounter := 0 }

/-- `_getRoomState`: get the room's state, creating an empty one if absent. -/
def getRoomState (s : DrawingState) (roomId : String) : RoomState × DrawingState :=
  match lookupA s.roomStates roomId with
  | some rs => (rs, s)
  | none =>
      let rs : RoomState := { strokes := [], undoStacks := [] }
      (rs, { s with roomStates := setA s.roomStates roomId rs })

/-- `addStroke(roomId, strokeData)`: mint the next stroke id, build the
stroke object (defaulting timestamp to `Date.now()` and type to `"draw"`),
append it to the room's timeline, and clear the user's undo stack.
`now` stands for `Date.now()`. -/
def addStroke (s : DrawingState) (roomId : String) (d : StrokeData) (now : Nat) :
    Stroke × DrawingState :=
  let p := getRoomState s roomId
  let rs := p.1
  let s1 := p.2
  let counter := s1.strokeIdCounter + 1
  let stroke : Stroke :=
    { id := counter
      userId := d.userId
      timestamp := jsOrNat d.timestamp now
      type := jsOrStr d.type "draw"
      color := d.color
      size := d.size
      path := d.path }
  let rs' : RoomState :=
    { strokes := rs.strokes ++ [stroke]
      undoStacks := delA rs.undoStacks d.userId }
  (stroke, { roomStates := setA s1.roomStates roomId rs', strokeIdCounter := counter })

/-- Helper for `updateStroke`: append `p` to the path of the first stroke
whose id is `strokeId` (the JS `Array.prototype.find` followed by an
in-place `path.push`); `none` when no stroke has that id. -/
def updateFirst : List Stroke → Nat → Point → Option (List Stroke)
  | [], _, _ => none
  | st :: rest, sid, p =>
      if st.id = sid then some ({ st with path := st.path ++ [p] } :: rest)
      else (updateFirst rest sid p).map (st :: ·)

/-- `updateStroke(roomId, strokeId, x, y)`: `false` (state untouched) when
the room has no state or no stroke has the id; otherwise push the point and
return `true`. -/
def updateStroke (s : DrawingState) (roomId : String) (strokeId : Nat) (p : Point) :
    Bool × DrawingState :=
  match lookupA s.roomStates roomId with
  | none => (false, s)
  | some rs =>
      match updateFirst rs.strokes strokeId p with
      | none => (false, s)
      | some strokes' =>
          (true, { s with roomStates := setA s.roomStates roomId { rs with strokes := strokes' } })

/-- `finalizeStroke(roomId, strokeId)`: the method body is empty — the
stroke "is already in the strokes array, no additional action needed". -/
def finalizeStroke (s : DrawingState) (_roomId : String) (_strokeId : Nat) : DrawingState :=
  s

/-- Helper for `undo`: the backward scan for the last stroke owned by the
user, followed by the `splice` that removes it.  Returns the removed stroke
and the timeline without it. -/
def removeLastBy : List Stroke → String → Option (Stroke × List Stroke)
  | [], _ => none
  | st :: rest, u =>
      match removeLastBy rest u with
      | some (found, rest') => some (found, st :: rest')
      | none => if st.userId = u then some (st, rest) else none

/-- `undo(roomId, userId)`: remove the user's most recent stroke from the
timeline (order-preserving `splice`) and push it onto that user's undo
stack; `none` when the room has no state or the user owns no stroke. -/
def undo (s : DrawingState) (roomId userId : String) : Option Stroke × DrawingState :=
  match lookupA s.roomStates roomId with
  | none => (none, s)
  | some rs =>
      match removeLastBy rs.strokes userId with
      | none => (none, s)
      | some (st, strokes') =>
          let stack := (lookupA rs.undoStacks userId).getD []
          let rs' : RoomState :=
            { strokes := strokes'
              undoStacks := setA rs.undoStacks userId (stack ++ [st]) }
          (some st, { s with roomStates := setA s.roomStates roomId rs' })

/-- `redo(roomId, userId)`: pop the user's undo stack (LIFO) and append the
stroke to the current end of the timeline; `none` when the room has no
state or the stack is absent/empty.  An emptied stack entry is deleted. -/
def redo (s : DrawingState) (roomId userId : String) : Option Stroke × DrawingState :=
  match lookupA s.roomStates roomId with
  | none => (none, s)
  | some rs =>
      match lookupA rs.undoStacks userId with
      | none => (none, s)
      | some stack =>
          match stack.getLast? with
          | none => (none, s)
          | some st =>
              let stack' := stack.dropLast
              let undoStacks' :=
                if stack' = [] then delA rs.undoStacks userId
                else setA rs.undoStacks userId stack'
              let rs' : RoomState := { strokes := rs.strokes ++ [st], undoStacks := undoStacks' }
              (some st, { s with roomStates := setA s.roomStates roomId rs' })

/-- The object `getFullState` returns: `{ roomId, strokes }`. -/
structure FullState where
  roomId : String
  strokes : List Stroke
deriving DecidableEq, Repr

/-- `getFullState(roomId)`: the room's stroke list (defensive copies are
identities under value semantics), or an empty list when the room has no
state.  The method only reads, so the state component is returned as-is. -/
def getFullState (s : DrawingState) (roomId : String) : FullState × DrawingState :=
  match lookupA s.roomStates roomId with
  | none => ({ roomId := roomId, strokes := [] }, s)
  | some rs => ({ roomId := roomId, strokes := rs.strokes }, s)

/-- `clearRoom(roomId)`: delete the room's drawing state ("optional utility
method" — not called by any handler in the server). -/
def clearRoom (s : DrawingState) (roomId : String) : DrawingState :=
  { s with roomStates := delA s.roomStates roomId }

/-! ## RoomManager (`server/rooms.js`) -/

/-- The fixed 10-color palette `USER_COLORS`. -/
def USER_COLORS : List String :=
  ["#FF6B6B", "#4ECDC4", "#45B7D1", "#FFA07A", "#98D8C8",
   "#F7DC6F", "#BB8FCE", "#85C1E2", "#F8B739", "#52BE80"]

/-- A user object: `{ userId, socketId, roomId, color }`. -/
structure RMUser where
  userId : String
  socketId : String
  roomId : String
  color : String
deriving DecidableEq, Repr

/-- The `RoomManager`: `users : Map<socketId, user>`,
`rooms : Map<roomId, Set<socketId>>`, `roomColors : Map<roomId, Set<color>>`,
and the user id counter. -/
structure RoomManager where
  users : List (String × RMUser)
  rooms : List (String × List String)
  roomColors : List (String × List String)
  userIdCounter : Nat
deriving DecidableEq, Repr

/-- A fresh `RoomManager` (constructor). -/
def initRM : RoomManager :=
  { users := [], rooms := [], roomColors := [], userIdCounter := 0 }

/-- The embedded `user_${counter}_${ts}` identifier (injective in the
counter). -/
def mkUserId (n : Nat) : String :=
  "user_" ++ toString n

/-- `addUser(socketId, roomId)`: mint a user id, lazily create the room and
its color set, assign the first palette color not in use in this room —
falling back to `USER_COLORS[Math.floor(Math.random()*10)]` when the
palette is exhausted, with the random draw supplied by the oracle `rand` —
then register the color, the user, and the membership. -/
def addUser (m : RoomManager) (socketId roomId : String) (rand : Nat) :
    RMUser × RoomManager :=
  let counter := m.userIdCounter + 1
  let rooms0 :=
    if (lookupA m.rooms roomId).isSome then m.rooms else setA m.rooms roomId []
  let roomColors0 :=
    if (lookupA m.rooms roomId).isSome then m.roomColors
    else setA m.roomColors roomId []
  let usedColors := (lookupA roomColors0 roomId).getD []
  let assignedColor :=
    match USER_COLORS.find? (fun c => !(usedColors.contains c)) with
    | some c => c
    | none => USER_COLORS.getD (rand % USER_COLORS.length) "#FF6B6B"
  let user : RMUser :=
    { userId := mkUserId counter
      socketId := socketId
      roomId := roomId
      color := assignedColor }
  let roomSet := (lookupA rooms0 roomId).getD []
  ( user
  , { users := setA m.users socketId user
      rooms := setA rooms0 roomId (insertSet roomSet socketId)
      roomColors := setA roomColors0 roomId (insertSet usedColors assignedColor)
      userIdCounter := counter } )

/-- `removeUser(socketId)`: no-op for an unknown socket; otherwise remove
the socket from its room's member set and delete the user.  If the room
becomes empty, delete the room and its color set entirely; otherwise free
the user's color back to the pool. -/
def removeUser (m : RoomManager) (socketId : String) : RoomManager :=
  match lookupA m.users socketId with
  | none => m
  | some user =>
      match lookupA m.rooms user.roomId with
      | none => { m with users := delA m.users socketId }
      | some roomSockets =>
          if roomSockets.erase socketId = [] then
            { m with
                users := delA m.users socketId
                rooms := delA m.rooms user.roomId
                roomColors := delA m.roomColors user.roomId }
          else
            { m with
                users := delA m.users socketId
                rooms := setA m.rooms user.roomId (roomSockets.erase socketId)
                roomColors := setA m.roomColors user.roomId
                  (((lookupA m.roomColors user.roomId).getD []).erase user.color) }

/-- `getRoomUsers(roomId)`: the member sockets resolved through the users
map (undefined entries filtered out); `[]` for an unknown room. -/
def getRoomUsers (m : RoomManager) (roomId : String) : List RMUser :=
  ((lookupA m.rooms roomId).getD []).filterMap (fun sid => lookupA m.users sid)

/-- `getRoomUserCount(roomId)`. -/
def getRoomUserCount (m : RoomManager) (roomId : String) : Nat :=
  ((lookupA m.rooms roomId).getD []).length

/-! ## Server event handlers (`server.js`) -/

/-- The in-memory server state: the two managers the handlers close over. -/
structure ServerState where
  rm : RoomManager
  ds : DrawingState
deriving DecidableEq, Repr

/-- A fresh server (both managers freshly constructed). -/
def initServer : ServerState :=
  { rm := initRM, ds := initDS }

/-- The `join-room` handler: register the user with the `RoomManager` and
unicast `full-state-sync` built by `getFullState`.  Returns the new server
state and the full state sent to the joiner.  (The guard `if (!roomId)
return` rejects the empty room id.) -/
def onJoinRoom (s : ServerState) (socketId roomId : String) (rand : Nat) :
    ServerState × Option FullState :=
  if roomId = "" then (s, none)
  else
    let p := addUser s.rm socketId roomId rand
    let q := getFullState s.ds roomId
    ({ rm := p.2, ds := q.2 }, some q.1)

/-- The `stroke-start` handler: drop when the room id is empty or the
socket has no registered user; otherwise `addStroke` with the acting
user's id and broadcast the minted stroke. -/
def onStrokeStart (s : ServerState) (socketId roomId : String)
    (p : Point) (color : Option String) (size : Nat) (ty : Option String)
    (now : Nat) : ServerState × Option Stroke :=
  if roomId = "" then (s, none)
  else
    match lookupA s.rm.users socketId with
    | none => (s, none)
    | some user =>
        let d : StrokeData :=
          { userId := user.userId
            timestamp := some now
            type := some (jsOrStr ty "draw")
            color := color
            size := size
            path := [p] }
        let q := addStroke s.ds roomId d now
        ({ s with ds := q.2 }, some q.1)

/-- The `stroke-update` handler: drop when the room id is empty or the
stroke id is falsy; otherwise `updateStroke`, broadcasting the update only
when it reported success. -/
def onStrokeUpdate (s : ServerState) (roomId : String) (strokeId : Nat) (p : Point) :
    ServerState × Option (String × Nat × Point) :=
  if roomId = "" ∨ strokeId = 0 then (s, none)
  else
    let q := updateStroke s.ds roomId strokeId p
    if q.1 then ({ s with ds := q.2 }, some (roomId, strokeId, p))
    else ({ s with ds := q.2 }, none)

/-- The `stroke-end` handler: drop on falsy ids; otherwise
`finalizeStroke` (a no-op) and broadcast `stroke-end`. -/
def onStrokeEnd (s : ServerState) (roomId : String) (strokeId : Nat) :
    ServerState × Option (String × Nat) :=
  if roomId = "" ∨ strokeId = 0 then (s, none)
  else ({ s with ds := finalizeStroke s.ds roomId strokeId }, some (roomId, strokeId))

/-- The `disconnect` handler: look the user up, remove it from the
`RoomManager`, and broadcast `user-left`.  The `DrawingStateManager` is
not touched (no handler calls `clearRoom`). -/
def onDisconnect (s : ServerState) (socketId : String) : ServerState :=
  match lookupA s.rm.users socketId with
  | none => s
  | some _ => { s with rm := removeUser s.rm socketId }

/-! ## Auxiliary definitions for the claims -/

/-- Keys of an association list. -/
def keysA {β : Type} (m : List (String × β)) : List String :=
  m.map Prod.fst

/-- Well-formedness of a `DrawingState`: JavaScript `Map`s never hold two
entries with the same key, so the room-state map and every room's
undo-stack map have duplicate-free keys.  Every state the server can reach
satisfies this (the constructor starts from empty maps and `Map.set` /
`Map.delete` preserve it). -/
def WFds (s : DrawingState) : Prop :=
  (keysA s.roomStates).Nodup ∧ ∀ q ∈ s.roomStates, (keysA q.2.undoStacks).Nodup

instance (s : DrawingState) : Decidable (WFds s) := by
  unfold WFds; infer_instance

/-- Apply a list of `addStroke` calls (stroke data plus its `Date.now()`)
to one room — the "other users drew in between" interference of the
undo/redo round-trip property. -/
def applyAdds (s : DrawingState) (r : String) : List (StrokeData × Nat) → DrawingState
  | [] => s
  | o :: rest => applyAdds (addStroke s r o.1 o.2).2 r rest

/-- The drawing-store operations reachable-state claims quantify over. -/
inductive DOp where
  | add (roomId : String) (d : StrokeData) (now : Nat)
  | upd (roomId : String) (strokeId : Nat) (p : Point)
  | fin (roomId : String) (strokeId : Nat)
  | und (roomId : String) (userId : String)
  | red (roomId : String) (userId : String)

/-- Apply one drawing-store operation (discarding the returned value, as a
caller that only mutates state). -/
def applyDOp (s : DrawingState) : DOp → DrawingState
  | DOp.add r d now => (addStroke s r d now).2
  | DOp.upd r i p => (updateStroke s r i p).2
  | DOp.fin r i => finalizeStroke s r i
  | DOp.und r u => (undo s r u).2
  | DOp.red r u => (redo s r u).2

/-- Run a sequence of drawing-store operations. -/
def runD : DrawingState → List DOp → DrawingState
  | s, [] => s
  | s, op :: rest => runD (applyDOp s op) rest

/-- All stroke ids held in a room's per-user undo stacks. -/
def stackIds (sts : List (String × List Stroke)) : List Nat :=
  (sts.map (fun q => q.2.map Stroke.id)).flatten

/-- All stroke ids a room holds: active timeline then undo stacks. -/
def roomIds (rs : RoomState) : List Nat :=
  rs.strokes.map Stroke.id ++ stackIds rs.undoStacks

/-- All stroke ids the store holds, across every room. -/
def allIds (s : DrawingState) : List Nat :=
  (s.roomStates.map (fun q => roomIds q.2)).flatten

/-- Reachable-state invariant of the drawing store: every stroke id held
anywhere (active timelines and undo stacks of all rooms) occurs exactly
once, and no held id exceeds the id counter. -/
def InvD (s : DrawingState) : Prop :=
  (allIds s).Nodup ∧ ∀ i ∈ allIds s, i ≤ s.strokeIdCounter

/-- The stroke object `addStroke` builds when the minted counter is `c`. -/
def mkStroke (c : Nat) (d : StrokeData) (now : Nat) : Stroke :=
  { id := c
    userId := d.userId
    timestamp := jsOrNat d.timestamp now
    type := jsOrStr d.type "draw"
    color := d.color
    size := d.size
    path := d.path }

/-- The room-registry operations of the color-uniqueness claim: a
connection joining the room (with the random-palette oracle used only on
pool exhaustion) or leaving it. -/
inductive RMOp where
  | join (socketId : String) (rand : Nat)
  | leave (socketId : String)

/-- Apply one registry operation to the room `R`. -/
def applyRMOp (R : String) (m : RoomManager) : RMOp → RoomManager
  | RMOp.join sid rand => (addUser m sid R rand).2
  | RMOp.leave sid => removeUser m sid

/-- Run a sequence of registry operations on the room `R`. -/
def runRM (R : String) : RoomManager → List RMOp → RoomManager
  | m0, [] => m0
  | m0, op :: rest => runRM R (applyRMOp R m0 op) rest

/-- Trace validity for the amended color-uniqueness claim: every join
registers a socket that is not already registered (each connection joins
at most once — a client re-emitting join-room on the same socket violates
this and leaks colors, see `c7Ops`), and at the moment of each join the
room holds fewer than 10 members. -/
def validTrace (R : String) (m : RoomManager) : List RMOp → Bool
  | [] => true
  | op :: rest =>
      (match op with
       | RMOp.join sid _ =>
           (lookupA m.users sid).isNone && decide (getRoomUserCount m R < 10)
       | RMOp.leave _ => true)
      && validTrace R (applyRMOp R m op) rest

/-- The display colors of the room's simultaneously-present members. -/
def memColors (m : RoomManager) (R : String) : List String :=
  (getRoomUsers m R).map (fun u => u.color)

/-- The member-count side condition of the color-uniqueness claim, with no
other requirement: after every step of the trace the room's concurrent
member count is at most 10 (it starts at 0, so it never exceeds 10 along
the trace). -/
def countBounded (R : String) (m : RoomManager) : List RMOp → Bool
  | [] => true
  | op :: rest =>
      decide (getRoomUserCount (applyRMOp R m op) R ≤ 10)
        && countBounded R (applyRMOp R m op) rest

/-- A trace refuting color uniqueness without a join-freshness condition:
socket `s1` emits join-room for the same room eleven times.  Each re-join
overwrites the `users` entry via `Map.set` without freeing the previous
color, so every join leaks one color into `roomColors` while the member
count stays 1; ten joins exhaust the 10-color palette, so the eleventh
falls back to the random-oracle palette pick (index 0, `"#FF6B6B"`).  A
second socket `s2` then joins (count 2) and the exhausted pool sends it to
the same fallback color. -/
def c7Ops : List RMOp :=
  [RMOp.join "s1" 0, RMOp.join "s1" 0, RMOp.join "s1" 0, RMOp.join "s1" 0,
   RMOp.join "s1" 0, RMOp.join "s1" 0, RMOp.join "s1" 0, RMOp.join "s1" 0,
   RMOp.join "s1" 0, RMOp.join "s1" 0, RMOp.join "s1" 0, RMOp.join "s2" 0]

/-- Registry invariant for a room `R`, maintained by every valid trace of
joins and leaves on `R` from a fresh manager: the member set and the color
pool have no duplicates, members and registered users correspond exactly,
the pool is precisely the set of members' colors and stays inside the
palette, the rooms and color maps are created/destroyed together, and all
the JS `Map`s have duplicate-free keys. -/
structure InvRM (R : String) (m : RoomManager) : Prop where
  roomNodup : ((lookupA m.rooms R).getD []).Nodup
  usersNodup : (keysA m.users).Nodup
  roomsKeysNodup : (keysA m.rooms).Nodup
  colorsKeysNodup : (keysA m.roomColors).Nodup
  memUsers : ∀ sid ∈ (lookupA m.rooms R).getD [],
    ∃ u, lookupA m.users sid = some u ∧ u.roomId = R
  usersMem : ∀ sid u, lookupA m.users sid = some u →
    u.roomId = R ∧ sid ∈ (lookupA m.rooms R).getD []
  colorsNodup : (memColors m R).Nodup
  usedIff : ∀ c, c ∈ (lookupA m.roomColors R).getD [] ↔ c ∈ memColors m R
  usedNodup : ((lookupA m.roomColors R).getD []).Nodup
  usedSub : ∀ c ∈ (lookupA m.roomColors R).getD [], c ∈ USER_COLORS
  roomsIff : (lookupA m.rooms R).isSome = (lookupA m.roomColors R).isSome

/-! ### Concrete scenario states used by counterexamples and witnesses -/

/-- C1 scenario: `sock1` joins `room1` on a fresh server. -/
def c1Join : ServerState := (onJoinRoom initServer "sock1" "room1" 0).1

/-- C1 scenario: `sock1` draws a one-point stroke. -/
def c1Draw : ServerState :=
  (onStrokeStart c1Join "sock1" "room1" ⟨0, 0⟩ (some "#000000") 5 (some "draw") 42).1

/-- C1 scenario: the stroke is ended. -/
def c1End : ServerState := (onStrokeEnd c1Draw "room1" 1).1

/-- C1 scenario: `sock1` — the last member of `room1` — disconnects. -/
def c1Gone : ServerState := onDisconnect c1End "sock1"

/-- C2 scenario: the stroke data of a stroke opened with a single point. -/
def c2Data : StrokeData :=
  { userId := "u1", timestamp := some 5, type := some "draw",
    color := some "#000000", size := 5, path := [⟨0, 0⟩] }

/-- C2 scenario: the one-point stroke is opened in `room1`. -/
def c2Open : DrawingState := (addStroke initDS "room1" c2Data 5).2

/-- C2 scenario: the one-point stroke receives its end event (zero appends
in between). -/
def c2Closed : DrawingState := finalizeStroke c2Open "room1" 1

/-- C4/C6 scenario stroke data. -/
def c4Data (u : String) (pts : List Point) : StrokeData :=
  { userId := u, timestamp := some 1, type := some "draw",
    color := some "#111111", size := 3, path := pts }

/-- C4 scenario: alice owns one two-point stroke. -/
def c4Start : DrawingState := (addStroke initDS "r" (c4Data "alice" [⟨0, 0⟩, ⟨1, 1⟩]) 1).2

/-- C4 scenario: the stroke object alice's undo removes. -/
def c4Stroke : Stroke :=
  { id := 1, userId := "alice", timestamp := 1, type := "draw",
    color := some "#111111", size := 3, path := [⟨0, 0⟩, ⟨1, 1⟩] }

/-- C4 scenario: the state after alice's undo. -/
def c4AfterUndo : DrawingState := (undo c4Start "r" "alice").2

/-- C6 scenario: alice draws, then bob draws, then alice draws again, then
bob draws again — alice's latest stroke is not the last timeline element. -/
def c6Start : DrawingState :=
  (addStroke
    (addStroke
      (addStroke
        (addStroke initDS "r" (c4Data "alice" [⟨0, 0⟩, ⟨1, 1⟩]) 1).2
        "r" (c4Data "bob" [⟨2, 2⟩, ⟨3, 3⟩]) 2).2
      "r" (c4Data "alice" [⟨4, 4⟩, ⟨5, 5⟩]) 3).2
    "r" (c4Data "bob" [⟨6, 6⟩, ⟨7, 7⟩]) 4).2

/-- C6 scenario: alice's most recent stroke (timeline element 3 of 4). -/
def c6Stroke : Stroke :=
  { id := 3, userId := "alice", timestamp := 1, type := "draw",
    color := some "#111111", size := 3, path := [⟨4, 4⟩, ⟨5, 5⟩] }

/-- C6 scenario: the state after alice's undo. -/
def c6AfterUndo : DrawingState := (undo c6Start "r" "alice").2

/-! ## Association-list lemmas -/

theorem lookupA_setA_self {β : Type} (m : List (String × β)) (k : String) (v : β) :
    lookupA (setA m k v) k = some v := by
  induction m with
  | nil => simp [setA, lookupA]
  | cons q rest ih =>
      by_cases h : q.1 = k
      · simp [setA, h, lookupA]
      · simp [setA, h, lookupA, ih]

theorem lookupA_setA_ne {β : Type} (m : List (String × β)) (k k' : String) (v : β)
    (h : k ≠ k') : lookupA (setA m k v) k' = lookupA m k' := by
  induction m with
  | nil => simp [setA, lookupA, h]
  | cons q rest ih =>
      by_cases hq : q.1 = k
      · simp [setA, hq, lookupA, h]
      · simp [setA, hq, lookupA, ih]

theorem lookupA_delA_ne {β : Type} (m : List (String × β)) (k k' : String)
    (h : k ≠ k') : lookupA (delA m k) k' = lookupA m k' := by
  induction m with
  | nil => simp [delA]
  | cons q rest ih =>
      by_cases hq : q.1 = k
      · simp [delA, hq, lookupA, fun hh : k = k' => h hh]
      · simp [delA, hq, lookupA, ih]

theorem lookupA_eq_none_iff {β : Type} (m : List (String × β)) (k : String) :
    lookupA m k = none ↔ ∀ q ∈ m, q.1 ≠ k := by
  induction m with
  | nil => simp [lookupA]
  | cons q rest ih =>
      by_cases hq : q.1 = k
      · simp [lookupA, hq]
      · simp [lookupA, hq, ih]

theorem lookupA_delA_self {β : Type} (m : List (String × β)) (k : String)
    (h : (keysA m).Nodup) : lookupA (delA m k) k = none := by
  induction m with
  | nil => simp [delA, lookupA]
  | cons q rest ih =>
      simp only [keysA, List.map_cons, List.nodup_cons] at h
      by_cases hq : q.1 = k
      · simp only [delA, hq, if_pos rfl]
        rw [lookupA_eq_none_iff]
        intro p hp hpk
        exact h.1 (hq ▸ hpk ▸ (List.mem_map_of_mem Prod.fst hp))
      · simp [delA, hq, lookupA, ih h.2]

theorem delA_sublist {β : Type} (m : List (String × β)) (k : String) :
    List.Sublist (delA m k) m := by
  induction m with
  | nil => simp [delA]
  | cons q rest ih =>
      by_cases hq : q.1 = k
      · simp only [delA, if_pos hq]; exact List.sublist_cons_self q rest
      · simp only [delA, if_neg hq]; exact List.Sublist.cons₂ q ih

theorem keysA_setA {β : Type} (m : List (String × β)) (k : String) (v : β) :
    (keysA (setA m k v) = keysA m ∧ (lookupA m k).isSome = true) ∨
    (keysA (setA m k v) = keysA m ++ [k] ∧ lookupA m k = none) := by
  induction m with
  | nil => right; simp [setA, keysA, lookupA]
  | cons q rest ih =>
      by_cases hq : q.1 = k
      · left; simp [setA, hq, keysA, lookupA]
      · rcases ih with ⟨he, hs⟩ | ⟨he, hn⟩
        · left; simp [setA, hq, keysA, lookupA, hs] at he ⊢; exact he
        · right; simp [setA, hq, keysA, lookupA, hn] at he ⊢; exact he

theorem not_mem_keysA_of_lookupA_none {β : Type} (m : List (String × β)) (k : String)
    (h : lookupA m k = none) : k ∉ keysA m := by
  intro hmem
  rcases List.mem_map.1 hmem with ⟨q, hq, hqk⟩
  exact ((lookupA_eq_none_iff m k).1 h q hq) hqk

theorem nodupKeys_setA {β : Type} (m : List (String × β)) (k : String) (v : β)
    (h : (keysA m).Nodup) : (keysA (setA m k v)).Nodup := by
  rcases keysA_setA m k v with ⟨he, _⟩ | ⟨he, hnone⟩
  · rw [he]; exact h
  · rw [he]
    have hk : k ∉ keysA m := not_mem_keysA_of_lookupA_none m k hnone
    simp [List.nodup_append, h, hk]

theorem nodupKeys_delA {β : Type} (m : List (String × β)) (k : String)
    (h : (keysA m).Nodup) : (keysA (delA m k)).Nodup :=
  h.sublist ((delA_sublist m k).map Prod.fst)

theorem mem_setA {β : Type} {m : List (String × β)} {k : String} {v : β} {q : String × β}
    (h : q ∈ setA m k v) : q = (k, v) ∨ q ∈ m := by
  induction m with
  | nil => simpa [setA] using h
  | cons p rest ih =>
      by_cases hp : p.1 = k
      · rcases (by simpa [setA, hp] using h : q = (k, v) ∨ q ∈ rest) with h1 | h1
        · exact Or.inl h1
        · exact Or.inr (List.mem_cons_of_mem p h1)
      · rcases (by simpa [setA, hp] using h : q = p ∨ q ∈ setA rest k v) with h1 | h1
        · exact Or.inr (h1 ▸ List.mem_cons_self p rest)
        · rcases ih h1 with h2 | h2
          · exact Or.inl h2
          · exact Or.inr (List.mem_cons_of_mem p h2)

theorem lookupA_mem {β : Type} {m : List (String × β)} {k : String} {v : β}
    (h : lookupA m k = some v) : (k, v) ∈ m := by
  induction m with
  | nil => simp [lookupA] at h
  | cons p rest ih =>
      by_cases hp : p.1 = k
      · have : p.2 = v := by simpa [lookupA, hp] using h
        have hpkv : p = (k, v) := Prod.ext hp this
        exact hpkv ▸ List.mem_cons_self p rest
      · exact List.mem_cons_of_mem p (ih (by simpa [lookupA, hp] using h))

/-! ## Claim theorems -/

/-- C10: for a room key with no room state (never joined, or cleared),
`getFullState` returns a well-defined result containing that room key and
an empty strokes list — it does not fail — and the store's map of room
states is unchanged by the query (no state is created as a side effect). -/
theorem getFullState_unknown_room (s : DrawingState) (roomId : String)
    (h : lookupA s.roomStates roomId = none) :
    getFullState s roomId = ({ roomId := roomId, strokes := [] }, s) := by
  simp [getFullState, h]

/-- Witness for C10: the fresh store has no state for `"lobby"`, and the
query returns the empty snapshot with the store intact. -/
theorem getFullState_unknown_room_witness :
    lookupA initDS.roomStates "lobby" = none ∧
    getFullState initDS "lobby" = ({ roomId := "lobby", strokes := [] }, initDS) :=
  ⟨rfl, getFullState_unknown_room initDS "lobby" rfl⟩

/-- C2 counterexample: a stroke opened with one point and closed after zero
appends is NOT removed from the timeline — the `fullState` snapshot still
contains it (stroke id 1, holding exactly 1 point, fewer than 2). -/
theorem short_stroke_retained_cex :
    (getFullState c2Closed "room1").1.strokes.map (fun st => (st.id, st.path.length))
      = [(1, 1)] := by
  decide

/-- C2 amended: `finalizeStroke` is a no-op (the marked-closed/discard
behavior is unimplemented), so a stroke closed with fewer than 2 points is
retained exactly as it was and appears in the `fullState` snapshot. -/
theorem finalizeStroke_noop (s : DrawingState) (roomId : String) (strokeId : Nat) :
    finalizeStroke s roomId strokeId = s := rfl

/-- C3 counterexample: after a stroke's end event has been processed, an
`updateStroke` for its id still succeeds and extends the point sequence —
closing does not freeze the stroke (the closed one-point stroke grows to
two points). -/
theorem append_after_close_cex :
    (updateStroke c2Closed "room1" 1 ⟨7, 7⟩).1 = true ∧
    ((updateStroke c2Closed "room1" 1 ⟨7, 7⟩).2.roomStates.map
        (fun q => q.2.strokes.map (fun st => st.path)))
      = [[[⟨0, 0⟩, ⟨7, 7⟩]]] := by
  decide

/-- C3 amended: closing records nothing, so a subsequent
`updateStroke`/append behaves exactly as it would have before the close —
points can still be appended to a closed stroke. -/
theorem updateStroke_after_close (s : DrawingState) (r : String) (i : Nat)
    (r' : String) (i' : Nat) (p : Point) :
    updateStroke (finalizeStroke s r i) r' i' p = updateStroke s r' i' p := rfl

theorem updateFirst_eq_none (l : List Stroke) (sid : Nat) (p : Point)
    (h : ∀ st ∈ l, st.id ≠ sid) : updateFirst l sid p = none := by
  induction l with
  | nil => rfl
  | cons st rest ih =>
      simp only [updateFirst, if_neg (h st (List.mem_cons_self st rest))]
      rw [ih (fun t ht => h t (List.mem_cons_of_mem st ht))]
      rfl

/-- C8: an `updateStroke` naming a room with no state, or a stroke id not
present in that room's timeline, returns the boolean failure `false`, the
entire drawing state is left exactly unchanged, and the `stroke-update`
handler emits no broadcast for it. -/
theorem updateStroke_failure (s : ServerState) (roomId : String) (strokeId : Nat) (p : Point)
    (h : lookupA s.ds.roomStates roomId = none ∨
      ∃ rs, lookupA s.ds.roomStates roomId = some rs ∧ ∀ st ∈ rs.strokes, st.id ≠ strokeId) :
    updateStroke s.ds roomId strokeId p = (false, s.ds) ∧
    onStrokeUpdate s roomId strokeId p = (s, none) := by
  have hup : updateStroke s.ds roomId strokeId p = (false, s.ds) := by
    rcases h with h | ⟨rs, hrs, hs⟩
    · simp [updateStroke, h]
    · simp [updateStroke, hrs, updateFirst_eq_none rs.strokes strokeId p hs]
  refine ⟨hup, ?_⟩
  by_cases hg : roomId = "" ∨ strokeId = 0
  · simp [onStrokeUpdate, hg]
  · simp [onStrokeUpdate, hg, hup]

/-- Witness for C8: on a fresh server no room `"room1"` exists; the update
fails, mutates nothing, and is not broadcast. -/
theorem updateStroke_failure_witness :
    lookupA initServer.ds.roomStates "room1" = none ∧
    (updateStroke initServer.ds "room1" 1 ⟨0, 0⟩ = (false, initServer.ds) ∧
      onStrokeUpdate initServer "room1" 1 ⟨0, 0⟩ = (initServer, none)) :=
  ⟨rfl, updateStroke_failure initServer "room1" 1 ⟨0, 0⟩ (Or.inl rfl)⟩

/-- C1 counterexample: `sock1` joins `room1`, draws a stroke, and
disconnects, leaving the room with zero members; yet a fresh connection
joining a room with the same key receives the old stroke in its
full-state bootstrap — the drawing timeline was not deleted. -/
theorem room_deletion_cex :
    getRoomUserCount c1Gone.rm "room1" = 0 ∧
    (onJoinRoom c1Gone "sock2" "room1" 0).2 =
      some { roomId := "room1",
             strokes := [{ id := 1, userId := "user_1", timestamp := 42, type := "draw",
                           color := some "#000000", size := 5, path := [⟨0, 0⟩] }] } := by
  decide

/-- C1 amended: when the last member of a room disconnects, only the
`RoomManager`'s membership set and color pool for the room are deleted;
the `DrawingStateManager`'s room state (timeline and undo stacks) is left
untouched — no handler calls `clearRoom` — so `getFullState` for the key
answers exactly as before the room emptied. -/
theorem disconnect_leaves_drawing_state (s : ServerState) (sid : String) (u : RMUser)
    (hwroom : (keysA s.rm.rooms).Nodup) (hwcol : (keysA s.rm.roomColors).Nodup)
    (hu : lookupA s.rm.users sid = some u)
    (hlast : lookupA s.rm.rooms u.roomId = some [sid]) :
    (onDisconnect s sid).ds = s.ds ∧
    lookupA (onDisconnect s sid).rm.rooms u.roomId = none ∧
    lookupA (onDisconnect s sid).rm.roomColors u.roomId = none ∧
    getFullState (onDisconnect s sid).ds u.roomId = getFullState s.ds u.roomId := by
  have herase : ([sid] : List String).erase sid = [] := by simp
  refine ⟨?_, ?_, ?_, ?_⟩
  · simp [onDisconnect, removeUser, hu, hlast, herase]
  · simp [onDisconnect, removeUser, hu, hlast, herase,
      lookupA_delA_self s.rm.rooms u.roomId hwroom]
  · simp [onDisconnect, removeUser, hu, hlast, herase,
      lookupA_delA_self s.rm.roomColors u.roomId hwcol]
  · have hds : (onDisconnect s sid).ds = s.ds := by
      simp [onDisconnect, removeUser, hu, hlast, herase]
    rw [hds]

/-- Witness for C1's amended claim: the concrete one-member scenario. -/
theorem disconnect_leaves_drawing_state_witness :
    lookupA c1End.rm.users "sock1" =
      some { userId := "user_1", socketId := "sock1", roomId := "room1", color := "#FF6B6B" } ∧
    ((onDisconnect c1End "sock1").ds = c1End.ds ∧
      lookupA (onDisconnect c1End "sock1").rm.rooms "room1" = none ∧
      lookupA (onDisconnect c1End "sock1").rm.roomColors "room1" = none ∧
      getFullState (onDisconnect c1End "sock1").ds "room1" = getFullState c1End.ds "room1") :=
  ⟨by decide,
    disconnect_leaves_drawing_state c1End "sock1"
      { userId := "user_1", socketId := "sock1", roomId := "room1", color := "#FF6B6B" }
      (by decide) (by decide) (by decide) (by decide)⟩

theorem removeLastBy_eq_none_iff (l : List Stroke) (u : String) :
    removeLastBy l u = none ↔ ∀ t ∈ l, t.userId ≠ u := by
  induction l with
  | nil => simp [removeLastBy]
  | cons a rest ih =>
      simp only [removeLastBy]
      cases hrec : removeLastBy rest u with
      | some p =>
          obtain ⟨found, rest'⟩ := p
          constructor
          · intro h; exact Option.noConfusion h
          · intro hall
            have hn : removeLastBy rest u = none :=
              ih.2 (fun t ht => hall t (List.mem_cons_of_mem a ht))
            rw [hrec] at hn
            exact Option.noConfusion hn
      | none =>
          by_cases ha : a.userId = u
          · simp only [if_pos ha]
            constructor
            · intro h; exact Option.noConfusion h
            · intro hall; exact absurd ha (hall a (List.mem_cons_self a rest))
          · simp only [if_neg ha]
            constructor
            · intro _ t ht
              rcases List.mem_cons.1 ht with rfl | ht'
              · exact ha
              · exact ih.1 hrec t ht'
            · intro _; trivial

theorem removeLastBy_spec (l : List Stroke) (u : String) (st : Stroke) (l' : List Stroke)
    (h : removeLastBy l u = some (st, l')) :
    ∃ l₁ l₂, l = l₁ ++ st :: l₂ ∧ l' = l₁ ++ l₂ ∧ st.userId = u ∧ ∀ t ∈ l₂, t.userId ≠ u := by
  induction l generalizing l' with
  | nil => exact Option.noConfusion h
  | cons a rest ih =>
      simp only [removeLastBy] at h
      cases hrec : removeLastBy rest u with
      | some p =>
          obtain ⟨found, rest'⟩ := p
          rw [hrec] at h
          simp only [Option.some.injEq, Prod.mk.injEq] at h
          obtain ⟨hf, hl⟩ := h
          obtain ⟨l₁, l₂, he1, he2, he3, he4⟩ := ih rest' (by rw [hrec, hf])
          exact ⟨a :: l₁, l₂, by rw [he1]; rfl, by rw [← hl, he2]; rfl, he3, he4⟩
      | none =>
          rw [hrec] at h
          by_cases ha : a.userId = u
          · rw [if_pos ha] at h
            simp only [Option.some.injEq, Prod.mk.injEq] at h
            obtain ⟨hf, hl⟩ := h
            exact ⟨[], rest, by simp [hf], by simp [hl], hf ▸ ha,
              (removeLastBy_eq_none_iff rest u).1 hrec⟩
          · rw [if_neg ha] at h
            exact Option.noConfusion h

/-- C6: for distinct users, undo removes only the acting user's most recent
stroke: when `undo` for user `A` removes stroke `st`, the old timeline
splits as `l₁ ++ st :: l₂` with no `A`-owned stroke in `l₂` (so `st` is
`A`'s most recent), the new timeline is `l₁ ++ l₂` (order-preserving
removal of that one element, not truncation), and the subsequence of
strokes not owned by `A` is exactly unchanged. -/
theorem undo_removes_only_own (s : DrawingState) (r A : String) (st : Stroke)
    (s' : DrawingState) (h : undo s r A = (some st, s')) :
    ∃ rs rs' l₁ l₂,
      lookupA s.roomStates r = some rs ∧
      lookupA s'.roomStates r = some rs' ∧
      rs.strokes = l₁ ++ st :: l₂ ∧
      rs'.strokes = l₁ ++ l₂ ∧
      st.userId = A ∧
      (∀ t ∈ l₂, t.userId ≠ A) ∧
      rs'.strokes.filter (fun t => t.userId != A)
        = rs.strokes.filter (fun t => t.userId != A) := by
  unfold undo at h
  split at h
  · exact absurd h (by simp)
  · rename_i rs hlook
    split at h
    · exact absurd h (by simp)
    · rename_i st0 strokes' hrem
      simp only [Prod.mk.injEq, Option.some.injEq] at h
      obtain ⟨hst, hs'⟩ := h
      obtain ⟨l₁, l₂, he1, he2, he3, he4⟩ := removeLastBy_spec rs.strokes A st0 strokes' hrem
      rw [hst] at he1 he3
      have hlook' : lookupA s'.roomStates r =
          some (RoomState.mk strokes'
            (setA rs.undoStacks A ((lookupA rs.undoStacks A).getD [] ++ [st0]))) := by
        rw [← hs']
        exact lookupA_setA_self s.roomStates r _
      refine ⟨rs, _, l₁, l₂, hlook, hlook', he1, he2, he3, he4, ?_⟩
      have hstA : (st.userId != A) = false := by simp [he3]
      simp [he2, he1, hstA]

/-- Witness for C6: alice and bob alternate strokes (ids 1..4, alice owns
1 and 3); alice's undo removes stroke 3 from the middle, leaving bob's
strokes 2 and 4 in place and in order. -/
theorem undo_removes_only_own_witness :
    undo c6Start "r" "alice" = (some c6Stroke, c6AfterUndo) ∧
    (∃ rs rs' l₁ l₂,
      lookupA c6Start.roomStates "r" = some rs ∧
      lookupA c6AfterUndo.roomStates "r" = some rs' ∧
      rs.strokes = l₁ ++ c6Stroke :: l₂ ∧
      rs'.strokes = l₁ ++ l₂ ∧
      c6Stroke.userId = "alice" ∧
      (∀ t ∈ l₂, t.userId ≠ "alice") ∧
      rs'.strokes.filter (fun t => t.userId != "alice")
        = rs.strokes.filter (fun t => t.userId != "alice")) :=
  ⟨by decide, undo_removes_only_own c6Start "r" "alice" c6Stroke c6AfterUndo (by decide)⟩

theorem WFds_mk_setA (mss : List (String × RoomState)) (c : Nat) (r : String) (rs' : RoomState)
    (h1 : (keysA mss).Nodup) (h2 : ∀ q ∈ mss, (keysA q.2.undoStacks).Nodup)
    (h3 : (keysA rs'.undoStacks).Nodup) :
    WFds { roomStates := setA mss r rs', strokeIdCounter := c } := by
  refine ⟨nodupKeys_setA mss r rs' h1, ?_⟩
  intro q hq
  rcases mem_setA hq with h | h
  · rw [h]; exact h3
  · exact h2 q h

theorem WFds_undo (s : DrawingState) (r u : String) (hwf : WFds s) : WFds (undo s r u).2 := by
  unfold undo
  split
  · exact hwf
  · rename_i rs hlook
    split
    · exact hwf
    · rename_i st strokes' hrem
      exact WFds_mk_setA s.roomStates s.strokeIdCounter r
        ⟨strokes', setA rs.undoStacks u ((lookupA rs.undoStacks u).getD [] ++ [st])⟩
        hwf.1 hwf.2
        (nodupKeys_setA rs.undoStacks u _ (hwf.2 (r, rs) (lookupA_mem hlook)))

theorem getRoomState_stacks_nodup (s1 : DrawingState) (r : String) (hwf : WFds s1) :
    (keysA (getRoomState s1 r).1.undoStacks).Nodup := by
  unfold getRoomState
  split
  · rename_i rs hlook
    exact hwf.2 (r, rs) (lookupA_mem hlook)
  · simp [keysA]

theorem addStroke_room (s1 : DrawingState) (r : String) (d : StrokeData) (now : Nat) :
    lookupA ((addStroke s1 r d now).2).roomStates r =
      some ⟨(getRoomState s1 r).1.strokes ++ [(addStroke s1 r d now).1],
            delA (getRoomState s1 r).1.undoStacks d.userId⟩ :=
  lookupA_setA_self _ r _

theorem redo_fst (s2 : DrawingState) (r u : String) :
    (redo s2 r u).1 = (lookupA s2.roomStates r).bind
      (fun rs => (lookupA rs.undoStacks u).bind (fun stack => stack.getLast?)) := by
  unfold redo
  split
  · rename_i hlook
    rw [hlook]
    rfl
  · rename_i rs hlook
    rw [hlook]
    simp only [Option.some_bind]
    split
    · rename_i hstack
      simp [hstack]
    · rename_i stack hstack
      simp only [hstack, Option.some_bind]
      split
      · rename_i hlast
        simp [hlast]
      · rename_i st hlast
        simp [hlast]

theorem redo_after_addStroke (s1 : DrawingState) (r : String) (d : StrokeData) (now : Nat)
    (hwf : WFds s1) :
    (redo ((addStroke s1 r d now).2) r d.userId).1 = none := by
  rw [redo_fst, addStroke_room]
  simp only [Option.some_bind]
  rw [lookupA_delA_self _ d.userId (getRoomState_stacks_nodup s1 r hwf)]
  rfl

/-- C5: opening a new stroke for user `u` empties `u`'s undo stack — in any
well-formed state, `undo(u)` followed by `addStroke` for `u` followed by
`redo(u)` makes the redo return `none` (there is nothing to redo). -/
theorem new_stroke_clears_redo (s : DrawingState) (r u : String) (d : StrokeData) (now : Nat)
    (hwf : WFds s) (hu : d.userId = u) :
    (redo ((addStroke ((undo s r u).2) r d now).2) r u).1 = none := by
  subst hu
  exact redo_after_addStroke ((undo s r d.userId).2) r d now (WFds_undo s r d.userId hwf)

/-- Witness for C5: alice draws, undoes, draws again; her redo then yields
nothing. -/
theorem new_stroke_clears_redo_witness :
    WFds c4Start ∧ (c4Data "alice" [⟨8, 8⟩, ⟨9, 9⟩]).userId = "alice" ∧
    (redo ((addStroke ((undo c4Start "r" "alice").2) "r"
        (c4Data "alice" [⟨8, 8⟩, ⟨9, 9⟩]) 9).2) "r" "alice").1 = none :=
  ⟨by decide, rfl,
    new_stroke_clears_redo c4Start "r" "alice" (c4Data "alice" [⟨8, 8⟩, ⟨9, 9⟩]) 9
      (by decide) rfl⟩

theorem getRoomState_of_some (s' : DrawingState) (r : String) (rs' : RoomState)
    (h : lookupA s'.roomStates r = some rs') : getRoomState s' r = (rs', s') := by
  unfold getRoomState
  rw [h]

theorem undo_stack (s : DrawingState) (r u : String) (st : Stroke) (s1 : DrawingState)
    (h : undo s r u = (some st, s1)) :
    ∃ l, l.getLast? = some st ∧
      ∃ rs', lookupA s1.roomStates r = some rs' ∧ lookupA rs'.undoStacks u = some l := by
  unfold undo at h
  split at h
  · exact absurd h (by simp)
  · rename_i rs hlook
    split at h
    · exact absurd h (by simp)
    · rename_i st0 strokes' hrem
      simp only [Prod.mk.injEq, Option.some.injEq] at h
      obtain ⟨hst, hs'⟩ := h
      refine ⟨(lookupA rs.undoStacks u).getD [] ++ [st0], hst ▸ List.getLast?_concat _,
        ⟨strokes', setA rs.undoStacks u ((lookupA rs.undoStacks u).getD [] ++ [st0])⟩,
        ?_, lookupA_setA_self _ _ _⟩
      rw [← hs']
      exact lookupA_setA_self _ _ _

theorem applyAdds_keeps_stack (r u : String) (l : List Stroke)
    (ops : List (StrokeData × Nat)) :
    ∀ s' : DrawingState,
      (∃ rs', lookupA s'.roomStates r = some rs' ∧ lookupA rs'.undoStacks u = some l) →
      (∀ o ∈ ops, o.1.userId ≠ u) →
      ∃ rs2, lookupA (applyAdds s' r ops).roomStates r = some rs2 ∧
        lookupA rs2.undoStacks u = some l := by
  induction ops with
  | nil =>
      intro s' hinv _
      exact hinv
  | cons o rest ih =>
      rintro s' ⟨rs', h1, h2⟩ hops
      apply ih
      · refine ⟨_, addStroke_room s' r o.1 o.2, ?_⟩
        rw [getRoomState_of_some s' r rs' h1]
        rw [lookupA_delA_ne rs'.undoStacks o.1.userId u (hops o (List.mem_cons_self o rest))]
        exact h2
      · intro o' ho'
        exact hops o' (List.mem_cons_of_mem o ho')

theorem redo_spec (s2 : DrawingState) (r u : String) (rs2 : RoomState)
    (stack : List Stroke) (st : Stroke)
    (hlook : lookupA s2.roomStates r = some rs2)
    (hstk : lookupA rs2.undoStacks u = some stack)
    (hlast : stack.getLast? = some st) :
    (redo s2 r u).1 = some st ∧
    ∃ rs3, lookupA ((redo s2 r u).2).roomStates r = some rs3 ∧
      rs3.strokes = rs2.strokes ++ [st] := by
  simp only [redo, hlook, hstk, hlast]
  exact ⟨trivial, _, lookupA_setA_self _ _ _, rfl⟩

/-- C4: undo immediately followed by redo restores the exact same stroke —
when `undo` for user `u` removes stroke `st` and any sequence of other
users' strokes is then appended to the timeline, `redo` for `u` returns
that identical stroke object (same id, owner, points) and places it at the
current end of the active timeline. -/
theorem undo_redo_roundtrip (s : DrawingState) (r u : String) (st : Stroke)
    (s1 : DrawingState) (ops : List (StrokeData × Nat))
    (h : undo s r u = (some st, s1))
    (hops : ∀ o ∈ ops, o.1.userId ≠ u) :
    (redo (applyAdds s1 r ops) r u).1 = some st ∧
    ∃ rs2 rs3,
      lookupA (applyAdds s1 r ops).roomStates r = some rs2 ∧
      lookupA ((redo (applyAdds s1 r ops) r u).2).roomStates r = some rs3 ∧
      rs3.strokes = rs2.strokes ++ [st] := by
  obtain ⟨l, hlast, hinv⟩ := undo_stack s r u st s1 h
  obtain ⟨rs2, hlook2, hstk2⟩ := applyAdds_keeps_stack r u l ops s1 hinv hops
  obtain ⟨hfst, rs3, hlook3, hstrokes⟩ :=
    redo_spec (applyAdds s1 r ops) r u rs2 l st hlook2 hstk2 hlast
  exact ⟨hfst, rs2, rs3, hlook2, hlook3, hstrokes⟩

/-- Witness for C4: alice undoes her two-point stroke, bob draws one
stroke in between, alice's redo restores her exact stroke at the end. -/
theorem undo_redo_roundtrip_witness :
    undo c4Start "r" "alice" = (some c4Stroke, c4AfterUndo) ∧
    (∀ o ∈ [(c4Data "bob" [⟨9, 9⟩], 2)], o.1.userId ≠ "alice") ∧
    ((redo (applyAdds c4AfterUndo "r" [(c4Data "bob" [⟨9, 9⟩], 2)]) "r" "alice").1
        = some c4Stroke ∧
      ∃ rs2 rs3,
        lookupA (applyAdds c4AfterUndo "r" [(c4Data "bob" [⟨9, 9⟩], 2)]).roomStates "r"
          = some rs2 ∧
        lookupA ((redo (applyAdds c4AfterUndo "r" [(c4Data "bob" [⟨9, 9⟩], 2)]) "r"
            "alice").2).roomStates "r" = some rs3 ∧
        rs3.strokes = rs2.strokes ++ [c4Stroke]) :=
  ⟨by decide, by decide,
    undo_redo_roundtrip c4Start "r" "alice" c4Stroke c4AfterUndo
      [(c4Data "bob" [⟨9, 9⟩], 2)] (by decide) (by decide)⟩

theorem setA_of_lookupA_none {β : Type} (m : List (String × β)) (k : String) (w : β)
    (h : lookupA m k = none) : setA m k w = m ++ [(k, w)] := by
  induction m with
  | nil => rfl
  | cons q rest ih =>
      by_cases hq : q.1 = k
      · simp [lookupA, hq] at h
      · simp only [lookupA, if_neg hq] at h
        simp [setA, hq, ih h]

theorem lookupA_split {β : Type} {m : List (String × β)} {k : String} {v : β}
    (h : lookupA m k = some v) :
    ∃ pre post, m = pre ++ (k, v) :: post ∧ lookupA pre k = none ∧
      (∀ w, setA m k w = pre ++ (k, w) :: post) ∧ delA m k = pre ++ post := by
  induction m with
  | nil => exact Option.noConfusion h
  | cons q rest ih =>
      by_cases hq : q.1 = k
      · have hv : q.2 = v := by simpa [lookupA, hq] using h
        refine ⟨[], rest, ?_, rfl, fun w => ?_, ?_⟩
        · simp [← hq, ← hv]
        · simp [setA, hq]
        · simp [delA, hq]
      · have h' : lookupA rest k = some v := by simpa [lookupA, hq] using h
        obtain ⟨pre, post, he, hpre, hset, hdel⟩ := ih h'
        refine ⟨q :: pre, post, by simp [he], by simp [lookupA, hq, hpre], fun w => ?_, ?_⟩
        · simp [setA, hq, hset w]
        · simp [delA, hq, hdel]

theorem sublist_flatten {α : Type} {L₁ L₂ : List (List α)} (h : List.Sublist L₁ L₂) :
    List.Sublist L₁.flatten L₂.flatten := by
  induction h with
  | slnil => exact List.Sublist.refl _
  | cons a _ ih => exact ih.trans (List.sublist_append_right _ _)
  | cons₂ a _ ih => exact ih.append_left _

theorem stackIds_delA_sublist (stks : List (String × List Stroke)) (u : String) :
    List.Sublist (stackIds (delA stks u)) (stackIds stks) :=
  sublist_flatten ((delA_sublist stks u).map _)

theorem updateFirst_ids (l : List Stroke) (sid : Nat) (p : Point) (l' : List Stroke)
    (h : updateFirst l sid p = some l') : l'.map Stroke.id = l.map Stroke.id := by
  induction l generalizing l' with
  | nil => exact Option.noConfusion h
  | cons st rest ih =>
      by_cases hst : st.id = sid
      · simp only [updateFirst, if_pos hst, Option.some.injEq] at h
        rw [← h]
        simp
      · simp only [updateFirst, if_neg hst] at h
        cases hrec : updateFirst rest sid p with
        | none => rw [hrec] at h; exact Option.noConfusion h
        | some l'' =>
            rw [hrec] at h
            simp only [Option.map_some', Option.some.injEq] at h
            rw [← h]
            simp [ih l'' hrec]

theorem InvD_of_eq (s s' : DrawingState)
    (hall : (allIds s' : Multiset Nat) = (allIds s : Multiset Nat))
    (hc : s.strokeIdCounter ≤ s'.strokeIdCounter)
    (h : InvD s) : InvD s' := by
  obtain ⟨hn, hb⟩ := h
  have hmem : ∀ i, i ∈ allIds s' ↔ i ∈ allIds s := fun i => by
    rw [← Multiset.mem_coe, hall, Multiset.mem_coe]
  constructor
  · rw [← Multiset.coe_nodup, hall, Multiset.coe_nodup]
    exact hn
  · intro i hi
    exact Nat.le_trans (hb i ((hmem i).1 hi)) hc

theorem InvD_of_le_add (s s' : DrawingState)
    (hall : (allIds s' : Multiset Nat)
      ≤ (allIds s : Multiset Nat) + {s.strokeIdCounter + 1})
    (hc : s'.strokeIdCounter = s.strokeIdCounter + 1)
    (h : InvD s) : InvD s' := by
  obtain ⟨hn, hb⟩ := h
  have hfresh : ((allIds s : Multiset Nat) + {s.strokeIdCounter + 1}).Nodup := by
    rw [add_comm, Multiset.singleton_add]
    refine Multiset.nodup_cons.2 ⟨?_, by simpa using hn⟩
    intro hmem
    have := hb _ (by simpa using hmem)
    omega
  constructor
  · rw [← Multiset.coe_nodup]
    exact Multiset.nodup_of_le hall hfresh
  · intro i hi
    have hi' : i ∈ (allIds s : Multiset Nat) + {s.strokeIdCounter + 1} :=
      Multiset.mem_of_le hall (by simpa using hi)
    rw [hc]
    rcases Multiset.mem_add.1 hi' with hml | hml
    · have := hb i (by simpa using hml)
      omega
    · have : i = s.strokeIdCounter + 1 := by simpa using hml
      omega

theorem allIds_eq_of_decomp (s : DrawingState) (pre post : List (String × RoomState))
    (r : String) (rs : RoomState) (he : s.roomStates = pre ++ (r, rs) :: post) :
    allIds s = (pre.map (fun q => roomIds q.2)).flatten
      ++ (roomIds rs ++ (post.map (fun q => roomIds q.2)).flatten) := by
  simp [allIds, he, List.map_append]

theorem coe_append_middle_congr (P Q X Y : List Nat)
    (h : (X : Multiset Nat) = (Y : Multiset Nat)) :
    ((P ++ (X ++ Q) : List Nat) : Multiset Nat)
      = ((P ++ (Y ++ Q) : List Nat) : Multiset Nat) := by
  calc ((P : Multiset Nat) + ((X : Multiset Nat) + (Q : Multiset Nat)))
      = ((P : Multiset Nat) + ((Y : Multiset Nat) + (Q : Multiset Nat))) := by rw [h]

theorem stackIds_setA_push (stks : List (String × List Stroke)) (u : String) (st : Stroke) :
    ((stackIds (setA stks u ((lookupA stks u).getD [] ++ [st])) : List Nat) : Multiset Nat)
      = ((stackIds stks : List Nat) : Multiset Nat) + {st.id} := by
  cases hstk : lookupA stks u with
  | none =>
      simp only [Option.getD_none, List.nil_append]
      rw [setA_of_lookupA_none stks u [st] hstk]
      simp only [stackIds, List.map_append, List.flatten_append, List.map_cons,
        List.map_nil, List.flatten_cons, List.flatten_nil, List.append_nil]
      rfl
  | some stack0 =>
      simp only [Option.getD_some]
      obtain ⟨p₁, p₂, he, hpre, hset, hdel⟩ := lookupA_split hstk
      rw [hset (stack0 ++ [st])]
      conv_rhs => rw [he]
      simp only [stackIds, List.map_append, List.map_cons, List.flatten_append,
        List.flatten_cons, List.map_nil, List.flatten_nil, List.append_nil]
      simp only [← Multiset.coe_add, ← Multiset.cons_coe, ← Multiset.singleton_add,
        Multiset.coe_nil, add_zero, zero_add]
      ac_rfl

theorem roomIds_und_perm (l₁ l₂ : List Stroke) (st : Stroke)
    (stks : List (String × List Stroke)) (u : String) :
    ((roomIds ⟨l₁ ++ l₂, setA stks u ((lookupA stks u).getD [] ++ [st])⟩ : List Nat) :
        Multiset Nat)
      = ((roomIds ⟨l₁ ++ st :: l₂, stks⟩ : List Nat) : Multiset Nat) := by
  have hpush := stackIds_setA_push stks u st
  simp only [roomIds, List.map_append, List.map_cons]
  calc ((l₁.map Stroke.id : Multiset Nat) + (l₂.map Stroke.id : Multiset Nat))
        + ((stackIds (setA stks u ((lookupA stks u).getD [] ++ [st])) : List Nat) :
            Multiset Nat)
      = ((l₁.map Stroke.id : Multiset Nat) + (l₂.map Stroke.id : Multiset Nat))
        + (((stackIds stks : List Nat) : Multiset Nat) + {st.id}) := by rw [hpush]
    _ = ((l₁.map Stroke.id : Multiset Nat)
          + ({st.id} + (l₂.map Stroke.id : Multiset Nat)))
        + ((stackIds stks : List Nat) : Multiset Nat) := by ac_rfl

theorem roomIds_red_perm (strokes : List Stroke) (st : Stroke)
    (stks : List (String × List Stroke)) (u : String) (q : List Stroke)
    (hstk : lookupA stks u = some (q ++ [st])) :
    ((roomIds ⟨strokes ++ [st], if q = [] then delA stks u else setA stks u q⟩ :
        List Nat) : Multiset Nat)
      = ((roomIds ⟨strokes, stks⟩ : List Nat) : Multiset Nat) := by
  obtain ⟨p₁, p₂, he, hpre, hset, hdel⟩ := lookupA_split hstk
  by_cases hnil : q = []
  · subst hnil
    rw [if_pos rfl, hdel]
    conv_rhs => rw [he]
    simp only [roomIds, stackIds, List.map_append, List.map_cons, List.map_nil,
      List.flatten_append, List.flatten_cons, List.flatten_nil, List.nil_append,
      List.append_nil]
    simp only [← Multiset.coe_add, ← Multiset.cons_coe, ← Multiset.singleton_add,
      Multiset.coe_nil, add_zero, zero_add]
    ac_rfl
  · rw [if_neg hnil, hset q]
    conv_rhs => rw [he]
    simp only [roomIds, stackIds, List.map_append, List.map_cons, List.map_nil,
      List.flatten_append, List.flatten_cons, List.flatten_nil, List.nil_append,
      List.append_nil]
    simp only [← Multiset.coe_add, ← Multiset.cons_coe, ← Multiset.singleton_add,
      Multiset.coe_nil, add_zero, zero_add]
    ac_rfl

theorem coe_le_push (P Q ids S S' : List Nat) (c : Nat) (hS : List.Sublist S' S) :
    ((P ++ (((ids ++ [c]) ++ S') ++ Q) : List Nat) : Multiset Nat)
      ≤ ((P ++ ((ids ++ S) ++ Q) : List Nat) : Multiset Nat) + {c} := by
  have hs : (S' : Multiset Nat) ≤ (S : Multiset Nat) := Multiset.coe_le.mpr hS.subperm
  calc (P : Multiset Nat)
        + ((((ids : Multiset Nat) + {c}) + (S' : Multiset Nat)) + (Q : Multiset Nat))
      ≤ (P : Multiset Nat)
        + ((((ids : Multiset Nat) + {c}) + (S : Multiset Nat)) + (Q : Multiset Nat)) := by
        gcongr
    _ = ((P : Multiset Nat)
        + (((ids : Multiset Nat) + (S : Multiset Nat)) + (Q : Multiset Nat))) + {c} := by
        ac_rfl

theorem getRoomState_of_none (s : DrawingState) (r : String)
    (h : lookupA s.roomStates r = none) :
    getRoomState s r =
      ((⟨[], []⟩ : RoomState),
        { s with roomStates := setA s.roomStates r (⟨[], []⟩ : RoomState) }) := by
  unfold getRoomState
  rw [h]

theorem addStroke_state_of_some (s : DrawingState) (r : String) (d : StrokeData) (now : Nat)
    (rs : RoomState) (hlook : lookupA s.roomStates r = some rs) :
    (addStroke s r d now).2 =
      { roomStates := setA s.roomStates r
          ⟨rs.strokes ++ [mkStroke (s.strokeIdCounter + 1) d now],
           delA rs.undoStacks d.userId⟩,
        strokeIdCounter := s.strokeIdCounter + 1 } := by
  unfold addStroke
  rw [getRoomState_of_some s r rs hlook]
  rfl

theorem addStroke_eq_of_none (s : DrawingState) (r : String) (d : StrokeData) (now : Nat)
    (h : lookupA s.roomStates r = none) :
    addStroke s r d now =
      addStroke { s with roomStates := setA s.roomStates r (⟨[], []⟩ : RoomState) } r d now := by
  unfold addStroke
  rw [getRoomState_of_none s r h,
    getRoomState_of_some { s with roomStates := setA s.roomStates r (⟨[], []⟩ : RoomState) }
      r (⟨[], []⟩ : RoomState) (lookupA_setA_self _ _ _)]

theorem allIds_setA_empty (s : DrawingState) (r : String)
    (h : lookupA s.roomStates r = none) :
    allIds { s with roomStates := setA s.roomStates r (⟨[], []⟩ : RoomState) }
      = allIds s := by
  unfold allIds
  rw [setA_of_lookupA_none s.roomStates r _ h]
  simp [roomIds, stackIds]

theorem coe_append_middle_le (P Q X Y : List Nat) (c : Nat)
    (h : (X : Multiset Nat) ≤ (Y : Multiset Nat) + {c}) :
    ((P ++ (X ++ Q) : List Nat) : Multiset Nat)
      ≤ ((P ++ (Y ++ Q) : List Nat) : Multiset Nat) + {c} := by
  calc (P : Multiset Nat) + ((X : Multiset Nat) + (Q : Multiset Nat))
      ≤ (P : Multiset Nat)
        + ((((Y : Multiset Nat) + {c})) + (Q : Multiset Nat)) := by gcongr
    _ = ((P : Multiset Nat) + ((Y : Multiset Nat) + (Q : Multiset Nat))) + {c} := by ac_rfl

theorem roomIds_add_le (rs : RoomState) (st : Stroke) (u : String) :
    ((roomIds ⟨rs.strokes ++ [st], delA rs.undoStacks u⟩ : List Nat) : Multiset Nat)
      ≤ ((roomIds rs : List Nat) : Multiset Nat) + {st.id} := by
  have hs : ((stackIds (delA rs.undoStacks u) : List Nat) : Multiset Nat)
      ≤ ((stackIds rs.undoStacks : List Nat) : Multiset Nat) :=
    Multiset.coe_le.mpr (stackIds_delA_sublist rs.undoStacks u).subperm
  simp only [roomIds, List.map_append, List.map_cons, List.map_nil]
  calc ((rs.strokes.map Stroke.id : Multiset Nat) + {st.id})
        + ((stackIds (delA rs.undoStacks u) : List Nat) : Multiset Nat)
      ≤ ((rs.strokes.map Stroke.id : Multiset Nat) + {st.id})
        + ((stackIds rs.undoStacks : List Nat) : Multiset Nat) := by gcongr
    _ = ((rs.strokes.map Stroke.id : Multiset Nat)
        + ((stackIds rs.undoStacks : List Nat) : Multiset Nat)) + {st.id} := by ac_rfl

theorem InvD_addStroke_some (s : DrawingState) (r : String) (d : StrokeData) (now : Nat)
    (rs : RoomState) (hlook : lookupA s.roomStates r = some rs)
    (h : InvD s) : InvD (addStroke s r d now).2 := by
  rw [addStroke_state_of_some s r d now rs hlook]
  refine InvD_of_le_add s _ ?_ rfl h
  obtain ⟨pre, post, he, hpre, hset, hdel⟩ := lookupA_split hlook
  rw [allIds_eq_of_decomp _ pre post r
        ⟨rs.strokes ++ [mkStroke (s.strokeIdCounter + 1) d now],
         delA rs.undoStacks d.userId⟩ (hset _),
      allIds_eq_of_decomp s pre post r rs he]
  exact coe_append_middle_le _ _ _ _ _
    (roomIds_add_le rs (mkStroke (s.strokeIdCounter + 1) d now) d.userId)

theorem InvD_addStroke (s : DrawingState) (r : String) (d : StrokeData) (now : Nat)
    (h : InvD s) : InvD (addStroke s r d now).2 := by
  cases hlook : lookupA s.roomStates r with
  | some rs => exact InvD_addStroke_some s r d now rs hlook h
  | none =>
      rw [addStroke_eq_of_none s r d now hlook]
      refine InvD_addStroke_some _ r d now ⟨[], []⟩ (lookupA_setA_self _ _ _) ?_
      refine InvD_of_eq s _ ?_ (Nat.le_refl _) h
      rw [allIds_setA_empty s r hlook]

theorem InvD_updateStroke (s : DrawingState) (r : String) (sid : Nat) (p : Point)
    (h : InvD s) : InvD (updateStroke s r sid p).2 := by
  unfold updateStroke
  split
  · exact h
  · rename_i rs hlook
    split
    · exact h
    · rename_i strokes' hupd
      show InvD { s with roomStates := setA s.roomStates r { rs with strokes := strokes' } }
      refine InvD_of_eq s _ ?_ (Nat.le_refl _) h
      obtain ⟨pre, post, he, hpre, hset, hdel⟩ := lookupA_split hlook
      rw [allIds_eq_of_decomp _ pre post r { rs with strokes := strokes' } (hset _),
          allIds_eq_of_decomp s pre post r rs he]
      apply coe_append_middle_congr
      have hids := updateFirst_ids rs.strokes sid p strokes' hupd
      have : roomIds { rs with strokes := strokes' } = roomIds rs := by
        unfold roomIds
        rw [hids]
      rw [this]

theorem InvD_undo (s : DrawingState) (r u : String) (h : InvD s) : InvD (undo s r u).2 := by
  unfold undo
  split
  · exact h
  · rename_i rs hlook
    split
    · exact h
    · rename_i st strokes' hrem
      show InvD ⟨setA s.roomStates r
        ⟨strokes', setA rs.undoStacks u ((lookupA rs.undoStacks u).getD [] ++ [st])⟩,
        s.strokeIdCounter⟩
      obtain ⟨l₁, l₂, he1, he2, he3, he4⟩ := removeLastBy_spec rs.strokes u st strokes' hrem
      refine InvD_of_eq s _ ?_ (Nat.le_refl _) h
      obtain ⟨pre, post, he, hpre, hset, hdel⟩ := lookupA_split hlook
      rw [allIds_eq_of_decomp _ pre post r
            ⟨strokes', setA rs.undoStacks u ((lookupA rs.undoStacks u).getD [] ++ [st])⟩
            (hset _),
          allIds_eq_of_decomp s pre post r rs he]
      apply coe_append_middle_congr
      rw [he2]
      have hrseta : roomIds rs = roomIds ⟨l₁ ++ st :: l₂, rs.undoStacks⟩ := by
        unfold roomIds
        rw [he1]
      rw [hrseta]
      exact roomIds_und_perm l₁ l₂ st rs.undoStacks u

theorem InvD_redo (s : DrawingState) (r u : String) (h : InvD s) : InvD (redo s r u).2 := by
  unfold redo
  split
  · exact h
  · rename_i rs hlook
    split
    · exact h
    · rename_i stack hstk
      split
      · exact h
      · rename_i st hlast
        show InvD ⟨setA s.roomStates r
          ⟨rs.strokes ++ [st],
            if stack.dropLast = [] then delA rs.undoStacks u
              else setA rs.undoStacks u stack.dropLast⟩,
          s.strokeIdCounter⟩
        obtain ⟨q, hq⟩ : ∃ q, stack = q ++ [st] := by
          rcases stack.eq_nil_or_concat with rfl | ⟨l', b, rfl⟩
          · exact Option.noConfusion hlast
          · rw [List.concat_eq_append, List.getLast?_concat] at hlast
            have hb : b = st := by simpa using hlast
            exact ⟨l', by rw [List.concat_eq_append, hb]⟩
        have hdrop : stack.dropLast = q := by rw [hq, List.dropLast_concat]
        rw [hdrop]
        rw [hq] at hstk
        refine InvD_of_eq s _ ?_ (Nat.le_refl _) h
        obtain ⟨pre, post, he, hpre, hset, hdel⟩ := lookupA_split hlook
        rw [allIds_eq_of_decomp _ pre post r
              ⟨rs.strokes ++ [st],
               if q = [] then delA rs.undoStacks u else setA rs.undoStacks u q⟩
              (hset _),
            allIds_eq_of_decomp s pre post r rs he]
        apply coe_append_middle_congr
        exact roomIds_red_perm rs.strokes st rs.undoStacks u q hstk

theorem InvD_applyDOp (s : DrawingState) (op : DOp) (h : InvD s) : InvD (applyDOp s op) := by
  cases op with
  | add r d now => exact InvD_addStroke s r d now h
  | upd r i p => exact InvD_updateStroke s r i p h
  | fin r i => exact h
  | und r u => exact InvD_undo s r u h
  | red r u => exact InvD_redo s r u h

theorem InvD_runD (ops : List DOp) : ∀ s, InvD s → InvD (runD s ops) := by
  induction ops with
  | nil => intro s h; exact h
  | cons op rest ih => intro s h; exact ih _ (InvD_applyDOp s op h)

/-- C9: in every state reachable from a fresh store by any sequence of
`addStroke`, `updateStroke`, `finalizeStroke`, `undo` and `redo`
operations, the list of all stroke ids held anywhere — every room's active
timeline followed by all its per-user undo stacks — has no duplicate.
Hence a stroke (identified by its durable id) appears in at most one of
the active timeline and the undo stacks: never in both the timeline and a
stack, and never in two different users' stacks. -/
theorem stroke_ids_unique (ops : List DOp) :
    (allIds (runD initDS ops)).Nodup :=
  (InvD_runD ops initDS ⟨List.nodup_nil, fun i hi => absurd hi (by simp [allIds, initDS])⟩).1

theorem length_filterMap_of_isSome {α β : Type} (l : List α) (f : α → Option β)
    (h : ∀ a ∈ l, (f a).isSome) : (l.filterMap f).length = l.length := by
  induction l with
  | nil => rfl
  | cons a rest ih =>
      rw [List.filterMap_cons]
      cases hf : f a with
      | none =>
          exact absurd (h a (List.mem_cons_self a rest)) (by simp [hf])
      | some b =>
          simp only [List.length_cons]
          rw [ih (fun x hx => h x (List.mem_cons_of_mem a hx))]

theorem nodup_length_le (l₁ l₂ : List String) (h1 : l₁.Nodup) (hs : ∀ x ∈ l₁, x ∈ l₂) :
    l₁.length ≤ l₂.length := by
  calc l₁.length = l₁.toFinset.card := (List.toFinset_card_of_nodup h1).symm
    _ ≤ l₂.toFinset.card := Finset.card_le_card (fun x hx => by
        simp only [List.mem_toFinset] at hx ⊢
        exact hs x hx)
    _ ≤ l₂.length := l₂.toFinset_card_le

theorem nodup_length_eq (l₁ l₂ : List String) (h1 : l₁.Nodup) (h2 : l₂.Nodup)
    (hm : ∀ x, x ∈ l₁ ↔ x ∈ l₂) : l₁.length = l₂.length :=
  Nat.le_antisymm (nodup_length_le l₁ l₂ h1 (fun x hx => (hm x).1 hx))
    (nodup_length_le l₂ l₁ h2 (fun x hx => (hm x).2 hx))

theorem find_color_succeeds (used memCols : List String)
    (hun : used.Nodup)
    (hiff : ∀ c, c ∈ used ↔ c ∈ memCols)
    (hcn : memCols.Nodup) (hlen : memCols.length < 10) :
    ∃ c₀, USER_COLORS.find? (fun c => !(used.contains c)) = some c₀
      ∧ c₀ ∈ USER_COLORS ∧ c₀ ∉ used := by
  cases hf : USER_COLORS.find? (fun c => !(used.contains c)) with
  | some c₀ =>
      refine ⟨c₀, rfl, List.mem_of_find?_eq_some hf, ?_⟩
      have hp := List.find?_some hf
      intro hmem
      rw [Bool.not_eq_true'] at hp
      have hc : used.contains c₀ = true := List.elem_iff.2 hmem
      rw [hp] at hc
      exact Bool.noConfusion hc
  | none =>
      exfalso
      have hall : ∀ c ∈ USER_COLORS, (!(used.contains c)) = false := by
        simpa [List.find?_eq_none] using hf
      have hsubset : ∀ c ∈ USER_COLORS, c ∈ used := by
        intro c hc
        have hb := hall c hc
        rw [Bool.not_eq_false'] at hb
        exact List.elem_iff.1 hb
      have h10 : USER_COLORS.length ≤ used.length :=
        nodup_length_le USER_COLORS used (by decide) hsubset
      have heq : used.length = memCols.length :=
        nodup_length_eq used memCols hun hcn hiff
      have : USER_COLORS.length = 10 := rfl
      omega

theorem addUser_spec (R : String) (m : RoomManager) (sid : String) (rand : Nat)
    (c₀ : String)
    (hfind : USER_COLORS.find?
        (fun c => !(((lookupA m.roomColors R).getD []).contains c)) = some c₀)
    (hiff : (lookupA m.rooms R).isSome = (lookupA m.roomColors R).isSome) :
    (addUser m sid R rand).1 = ⟨mkUserId (m.userIdCounter + 1), sid, R, c₀⟩ ∧
    (addUser m sid R rand).2.users
      = setA m.users sid ⟨mkUserId (m.userIdCounter + 1), sid, R, c₀⟩ ∧
    lookupA (addUser m sid R rand).2.rooms R
      = some (insertSet ((lookupA m.rooms R).getD []) sid) ∧
    lookupA (addUser m sid R rand).2.roomColors R
      = some (insertSet ((lookupA m.roomColors R).getD []) c₀) ∧
    ((keysA m.rooms).Nodup → (keysA (addUser m sid R rand).2.rooms).Nodup) ∧
    ((keysA m.roomColors).Nodup → (keysA (addUser m sid R rand).2.roomColors).Nodup) := by
  unfold addUser
  by_cases hhas : (lookupA m.rooms R).isSome = true
  · obtain ⟨roomSet, hrs⟩ := Option.isSome_iff_exists.1 hhas
    have hcs : (lookupA m.roomColors R).isSome = true := by rw [← hiff]; exact hhas
    obtain ⟨used, hus⟩ := Option.isSome_iff_exists.1 hcs
    rw [hus, Option.getD_some] at hfind
    simp only [hrs, hus, Option.isSome_some, if_true, Option.getD_some, hfind,
      lookupA_setA_self]
    exact ⟨trivial, trivial, trivial, trivial,
      fun hk => nodupKeys_setA m.rooms R _ hk,
      fun hk => nodupKeys_setA m.roomColors R _ hk⟩
  · have hrn : lookupA m.rooms R = none := by
      cases h : lookupA m.rooms R with
      | none => rfl
      | some v => rw [h] at hhas; simp at hhas
    have hcn : lookupA m.roomColors R = none := by
      rw [hrn] at hiff
      cases h : lookupA m.roomColors R with
      | none => rfl
      | some v => rw [h] at hiff; simp at hiff
    rw [hcn, Option.getD_none] at hfind
    simp only [hrn, hcn, Option.isSome_none, Bool.false_eq_true, if_false,
      lookupA_setA_self, Option.getD_some, Option.getD_none, hfind]
    exact ⟨trivial, trivial, trivial, trivial,
      fun hk => nodupKeys_setA _ R _ (nodupKeys_setA m.rooms R _ hk),
      fun hk => nodupKeys_setA _ R _ (nodupKeys_setA m.roomColors R _ hk)⟩

theorem InvRM_addUser (R : String) (m : RoomManager) (sid : String) (rand : Nat)
    (hinv : InvRM R m)
    (hfresh : lookupA m.users sid = none)
    (hcount : getRoomUserCount m R < 10) :
    InvRM R (addUser m sid R rand).2 := by
  have hlenG : (getRoomUsers m R).length = ((lookupA m.rooms R).getD []).length := by
    unfold getRoomUsers
    exact length_filterMap_of_isSome _ _ (fun a ha => by
      obtain ⟨u, hu, _⟩ := hinv.memUsers a ha
      rw [hu]
      rfl)
  have hlenM : (memColors m R).length < 10 := by
    unfold memColors
    rw [List.length_map, hlenG]
    exact hcount
  obtain ⟨c₀, hfind, hcmem, hcnotused⟩ :=
    find_color_succeeds ((lookupA m.roomColors R).getD []) (memColors m R)
      hinv.usedNodup hinv.usedIff hinv.colorsNodup hlenM
  obtain ⟨hfst, husers, hrooms, hcolors, hkr, hkc⟩ :=
    addUser_spec R m sid rand c₀ hfind hinv.roomsIff
  have hsidnot : sid ∉ (lookupA m.rooms R).getD [] := by
    intro hmem
    obtain ⟨u, hu, _⟩ := hinv.memUsers sid hmem
    rw [hfresh] at hu
    exact Option.noConfusion hu
  have hins_room : insertSet ((lookupA m.rooms R).getD []) sid
      = (lookupA m.rooms R).getD [] ++ [sid] := by
    unfold insertSet
    rw [if_neg hsidnot]
  have hins_col : insertSet ((lookupA m.roomColors R).getD []) c₀
      = (lookupA m.roomColors R).getD [] ++ [c₀] := by
    unfold insertSet
    rw [if_neg hcnotused]
  have husers_self : lookupA (addUser m sid R rand).2.users sid
      = some ⟨mkUserId (m.userIdCounter + 1), sid, R, c₀⟩ := by
    rw [husers]
    exact lookupA_setA_self _ _ _
  have husers_ne : ∀ k, k ≠ sid → lookupA (addUser m sid R rand).2.users k
      = lookupA m.users k := by
    intro k hk
    rw [husers]
    exact lookupA_setA_ne m.users sid k _ (fun he => hk he.symm)
  have hGRU : getRoomUsers (addUser m sid R rand).2 R
      = getRoomUsers m R ++ [⟨mkUserId (m.userIdCounter + 1), sid, R, c₀⟩] := by
    unfold getRoomUsers
    rw [hrooms, Option.getD_some, hins_room, List.filterMap_append]
    congr 1
    · exact List.filterMap_congr (fun x hx =>
        husers_ne x (fun he => hsidnot (he ▸ hx)))
    · simp [husers_self]
  have hmemC : memColors (addUser m sid R rand).2 R = memColors m R ++ [c₀] := by
    unfold memColors
    rw [hGRU, List.map_append]
    rfl
  have hc₀notmem : c₀ ∉ memColors m R := fun h => hcnotused ((hinv.usedIff c₀).2 h)
  refine ⟨?_, ?_, ?_, ?_, ?_, ?_, ?_, ?_, ?_, ?_, ?_⟩
  · rw [hrooms, Option.getD_some, hins_room]
    simp [List.nodup_append, hinv.roomNodup, hsidnot]
  · rw [husers]
    exact nodupKeys_setA _ _ _ hinv.usersNodup
  · exact hkr hinv.roomsKeysNodup
  · exact hkc hinv.colorsKeysNodup
  · intro sid' hmem'
    rw [hrooms, Option.getD_some, hins_room] at hmem'
    rcases List.mem_append.1 hmem' with hm | hm
    · obtain ⟨u, hu, hR⟩ := hinv.memUsers sid' hm
      exact ⟨u, by rw [husers_ne sid' (fun he => hsidnot (he ▸ hm))]; exact hu, hR⟩
    · have : sid' = sid := by simpa using hm
      subst this
      exact ⟨_, husers_self, rfl⟩
  · intro sid' u' hu'
    rw [hrooms, Option.getD_some, hins_room]
    by_cases hk : sid' = sid
    · subst hk
      rw [husers_self] at hu'
      have : u' = ⟨mkUserId (m.userIdCounter + 1), sid', R, c₀⟩ :=
        (Option.some.inj hu').symm
      rw [this]
      exact ⟨rfl, List.mem_append.2 (Or.inr (by simp))⟩
    · rw [husers_ne sid' hk] at hu'
      obtain ⟨hR, hm⟩ := hinv.usersMem sid' u' hu'
      exact ⟨hR, List.mem_append.2 (Or.inl hm)⟩
  · rw [hmemC]
    simp [List.nodup_append, hinv.colorsNodup, hc₀notmem]
  · intro c
    rw [hcolors, Option.getD_some, hins_col, hmemC]
    simp only [List.mem_append]
    constructor
    · rintro (hc | hc)
      · exact Or.inl ((hinv.usedIff c).1 hc)
      · exact Or.inr hc
    · rintro (hc | hc)
      · exact Or.inl ((hinv.usedIff c).2 hc)
      · exact Or.inr hc
  · rw [hcolors, Option.getD_some, hins_col]
    simp [List.nodup_append, hinv.usedNodup, hcnotused]
  · intro c hc
    rw [hcolors, Option.getD_some, hins_col] at hc
    rcases List.mem_append.1 hc with hm | hm
    · exact hinv.usedSub c hm
    · have : c = c₀ := by simpa using hm
      rw [this]
      exact hcmem
  · rw [hrooms, hcolors]
    rfl

theorem InvRM_removeUser (R : String) (m : RoomManager) (sid : String)
    (hinv : InvRM R m) : InvRM R (removeUser m sid) := by
  unfold removeUser
  split
  · exact hinv
  · rename_i user hu
    obtain ⟨huR, hmem⟩ := hinv.usersMem sid user hu
    rw [huR]
    split
    · rename_i hnone
      rw [hnone] at hmem
      simp at hmem
    · rename_i roomSockets hsome
      have hmem' : sid ∈ roomSockets := by
        rw [hsome] at hmem
        exact hmem
      have hn : roomSockets.Nodup := by
        have := hinv.roomNodup
        rw [hsome] at this
        exact this
      split
      · rename_i hempty
        have hone : roomSockets = [sid] := by
          have hlen : (roomSockets.erase sid).length = 0 := by rw [hempty]; rfl
          rw [List.length_erase_of_mem hmem'] at hlen
          have h1 : roomSockets.length = 1 := by
            have hpos : 0 < roomSockets.length := List.length_pos_of_mem hmem'
            omega
          obtain ⟨x, hx⟩ := List.length_eq_one.1 h1
          rw [hx] at hmem'
          have : sid = x := by simpa using hmem'
          rw [hx, this]
        have hdelr : lookupA (delA m.rooms R) R = none :=
          lookupA_delA_self m.rooms R hinv.roomsKeysNodup
        have hdelc : lookupA (delA m.roomColors R) R = none :=
          lookupA_delA_self m.roomColors R hinv.colorsKeysNodup
        refine ⟨?_, ?_, ?_, ?_, ?_, ?_, ?_, ?_, ?_, ?_, ?_⟩
        · dsimp only
          rw [hdelr]
          simp
        · exact nodupKeys_delA m.users sid hinv.usersNodup
        · exact nodupKeys_delA m.rooms R hinv.roomsKeysNodup
        · exact nodupKeys_delA m.roomColors R hinv.colorsKeysNodup
        · intro sid' hmem2
          dsimp only at hmem2
          rw [hdelr] at hmem2
          simp at hmem2
        · intro sid' u' hu'
          dsimp only at hu' ⊢
          by_cases hk : sid' = sid
          · subst hk
            rw [lookupA_delA_self m.users sid' hinv.usersNodup] at hu'
            exact Option.noConfusion hu'
          · rw [lookupA_delA_ne m.users sid sid' (fun he => hk he.symm)] at hu'
            obtain ⟨_, hm2⟩ := hinv.usersMem sid' u' hu'
            rw [hsome] at hm2
            rw [hone] at hm2
            exact absurd (by simpa using hm2) hk
        · unfold memColors getRoomUsers
          dsimp only
          rw [hdelr]
          simp
        · intro c
          unfold memColors getRoomUsers
          dsimp only
          rw [hdelr, hdelc]
          simp
        · dsimp only
          rw [hdelc]
          simp
        · intro c hc
          dsimp only at hc
          rw [hdelc] at hc
          simp at hc
        · dsimp only
          rw [hdelr, hdelc]
      · rename_i hne
        obtain ⟨a₁, a₂, hsplit⟩ := List.append_of_mem hmem'
        have hnodups : sid ∉ a₁ ∧ sid ∉ a₂ := by
          rw [hsplit] at hn
          obtain ⟨nd1, nd2, disj⟩ := List.nodup_append.1 hn
          exact ⟨fun hin => disj hin (List.mem_cons_self sid a₂),
            (List.nodup_cons.1 nd2).1⟩
        have herase : roomSockets.erase sid = a₁ ++ a₂ := by
          rw [hsplit, List.erase_append_right _ hnodups.1, List.erase_cons_head]
        have hgold : getRoomUsers m R
            = a₁.filterMap (fun k => lookupA m.users k)
              ++ user :: a₂.filterMap (fun k => lookupA m.users k) := by
          unfold getRoomUsers
          rw [hsome, Option.getD_some, hsplit, List.filterMap_append]
          simp [List.filterMap_cons, hu]
        have husers_ne : ∀ k, k ≠ sid →
            lookupA (delA m.users sid) k = lookupA m.users k := by
          intro k hk
          exact lookupA_delA_ne m.users sid k (fun he => hk he.symm)
        have hgnew : getRoomUsers (RoomManager.mk (delA m.users sid)
              (setA m.rooms R (roomSockets.erase sid))
              (setA m.roomColors R (((lookupA m.roomColors R).getD []).erase user.color))
              m.userIdCounter) R
            = a₁.filterMap (fun k => lookupA m.users k)
              ++ a₂.filterMap (fun k => lookupA m.users k) := by
          unfold getRoomUsers
          dsimp only
          rw [lookupA_setA_self, Option.getD_some, herase, List.filterMap_append]
          congr 1
          · exact List.filterMap_congr (fun x hx =>
              husers_ne x (fun he => hnodups.1 (he ▸ hx)))
          · exact List.filterMap_congr (fun x hx =>
              husers_ne x (fun he => hnodups.2 (he ▸ hx)))
        have hCold : memColors m R
            = (a₁.filterMap (fun k => lookupA m.users k)).map (fun u => u.color)
              ++ user.color
                :: (a₂.filterMap (fun k => lookupA m.users k)).map (fun u => u.color) := by
          unfold memColors
          rw [hgold, List.map_append, List.map_cons]
        have hCnew : memColors (RoomManager.mk (delA m.users sid)
              (setA m.rooms R (roomSockets.erase sid))
              (setA m.roomColors R (((lookupA m.roomColors R).getD []).erase user.color))
              m.userIdCounter) R
            = (a₁.filterMap (fun k => lookupA m.users k)).map (fun u => u.color)
              ++ (a₂.filterMap (fun k => lookupA m.users k)).map (fun u => u.color) := by
          unfold memColors
          rw [hgnew, List.map_append]
        have hcolorsplit := hinv.colorsNodup
        rw [hCold] at hcolorsplit
        have hcnot : user.color
              ∉ (a₁.filterMap (fun k => lookupA m.users k)).map (fun u => u.color)
            ∧ user.color
              ∉ (a₂.filterMap (fun k => lookupA m.users k)).map (fun u => u.color) := by
          obtain ⟨nd1, nd2, disj⟩ := List.nodup_append.1 hcolorsplit
          exact ⟨fun hin => disj hin (List.mem_cons_self _ _), (List.nodup_cons.1 nd2).1⟩
        refine ⟨?_, ?_, ?_, ?_, ?_, ?_, ?_, ?_, ?_, ?_, ?_⟩
        · dsimp only
          rw [lookupA_setA_self, Option.getD_some]
          exact hn.erase sid
        · exact nodupKeys_delA m.users sid hinv.usersNodup
        · exact nodupKeys_setA m.rooms R _ hinv.roomsKeysNodup
        · exact nodupKeys_setA m.roomColors R _ hinv.colorsKeysNodup
        · intro sid' hmem2
          dsimp only at hmem2 ⊢
          rw [lookupA_setA_self, Option.getD_some, herase] at hmem2
          have hne2 : sid' ≠ sid := by
            rcases List.mem_append.1 hmem2 with hm2 | hm2
            · exact fun he => hnodups.1 (he ▸ hm2)
            · exact fun he => hnodups.2 (he ▸ hm2)
          have hm3 : sid' ∈ (lookupA m.rooms R).getD [] := by
            rw [hsome, Option.getD_some, hsplit]
            rcases List.mem_append.1 hmem2 with hm2 | hm2
            · exact List.mem_append.2 (Or.inl hm2)
            · exact List.mem_append.2 (Or.inr (List.mem_cons_of_mem sid hm2))
          obtain ⟨u', hu', hR'⟩ := hinv.memUsers sid' hm3
          exact ⟨u', by rw [husers_ne sid' hne2]; exact hu', hR'⟩
        · intro sid' u' hu'
          dsimp only at hu' ⊢
          by_cases hk : sid' = sid
          · subst hk
            rw [lookupA_delA_self m.users sid' hinv.usersNodup] at hu'
            exact Option.noConfusion hu'
          · rw [husers_ne sid' hk] at hu'
            obtain ⟨hR', hm2⟩ := hinv.usersMem sid' u' hu'
            refine ⟨hR', ?_⟩
            rw [lookupA_setA_self, Option.getD_some, herase]
            rw [hsome, Option.getD_some, hsplit] at hm2
            rcases List.mem_append.1 hm2 with hm3 | hm3
            · exact List.mem_append.2 (Or.inl hm3)
            · rcases List.mem_cons.1 hm3 with he | hm4
              · exact absurd he hk
              · exact List.mem_append.2 (Or.inr hm4)
        · rw [hCnew]
          refine hinv.colorsNodup.sublist ?_
          rw [hCold]
          exact (List.sublist_cons_self _ _).append_left _
        · intro c
          dsimp only
          rw [lookupA_setA_self, Option.getD_some, hCnew]
          rw [(hinv.usedNodup).mem_erase_iff]
          constructor
          · rintro ⟨hne2, hc⟩
            have := (hinv.usedIff c).1 hc
            rw [hCold] at this
            rcases List.mem_append.1 this with hm2 | hm2
            · exact List.mem_append.2 (Or.inl hm2)
            · rcases List.mem_cons.1 hm2 with he | hm3
              · exact absurd he hne2
              · exact List.mem_append.2 (Or.inr hm3)
          · intro hc
            have hne2 : c ≠ user.color := by
              rcases List.mem_append.1 hc with hm2 | hm2
              · exact fun he => hcnot.1 (he ▸ hm2)
              · exact fun he => hcnot.2 (he ▸ hm2)
            refine ⟨hne2, (hinv.usedIff c).2 ?_⟩
            rw [hCold]
            rcases List.mem_append.1 hc with hm2 | hm2
            · exact List.mem_append.2 (Or.inl hm2)
            · exact List.mem_append.2 (Or.inr (List.mem_cons_of_mem _ hm2))
        · dsimp only
          rw [lookupA_setA_self, Option.getD_some]
          exact hinv.usedNodup.erase _
        · intro c hc
          dsimp only at hc
          rw [lookupA_setA_self, Option.getD_some] at hc
          exact hinv.usedSub c (List.mem_of_mem_erase hc)
        · dsimp only
          rw [lookupA_setA_self, lookupA_setA_self]
          rfl

theorem InvRM_init (R : String) : InvRM R initRM := by
  refine ⟨?_, ?_, ?_, ?_, ?_, ?_, ?_, ?_, ?_, ?_, ?_⟩ <;>
    simp [initRM, lookupA, keysA, memColors, getRoomUsers]

theorem InvRM_run (R : String) (ops : List RMOp) :
    ∀ m, InvRM R m → validTrace R m ops = true → InvRM R (runRM R m ops) := by
  induction ops with
  | nil => intro m h _; exact h
  | cons op rest ih =>
      intro m h hv
      cases op with
      | join sid rand =>
          simp only [validTrace, Bool.and_eq_true, Option.isNone_iff_eq_none,
            decide_eq_true_eq] at hv
          exact ih _ (InvRM_addUser R m sid rand h hv.1.1 hv.1.2) hv.2
      | leave sid =>
          simp only [validTrace, Bool.true_and] at hv
          exact ih _ (InvRM_removeUser R m sid h) hv

/-- C7 counterexample: the claim as stated — over every sequence of
`addUser`/`removeUser` operations on a room whose concurrent member count
never exceeds 10 — is false on the code.  The trace `c7Ops` keeps the
member count at most 2 at every step, yet ends with two
simultaneously-present members (`s1` and `s2`) both assigned `"#FF6B6B"`:
`addUser` overwrites `users.set(socketId, …)` without freeing the old
color, so repeat joins by one socket exhaust the 10-color pool and the
random fallback collides. -/
theorem color_collision_cex :
    countBounded "roomZ" initRM c7Ops = true ∧
    getRoomUserCount (runRM "roomZ" initRM c7Ops) "roomZ" = 2 ∧
    memColors (runRM "roomZ" initRM c7Ops) "roomZ" = ["#FF6B6B", "#FF6B6B"] ∧
    ¬ (memColors (runRM "roomZ" initRM c7Ops) "roomZ").Nodup := by
  decide

/-- C7 amended: along every sequence of joins and leaves on a room in
which each join registers a socket not already registered (each transport
connection joins at most once) and the room holds fewer than 10 members at
the moment of each join (so the concurrent member count never exceeds the
10-color palette), no two simultaneously-present members ever hold the
same color: the members' color list is duplicate-free after every such
trace (and hence at every intermediate state, since every prefix of a
valid trace is valid).  Colors are assigned first-fit over `USER_COLORS`
by `addUser` and freed back to the room's pool by `removeUser`.  The
freshness condition is necessary: without it, repeat joins by one socket
leak colors into the pool and force a random-fallback collision
(`color_collision_cex`). -/
theorem color_no_collision (R : String) (ops : List RMOp)
    (h : validTrace R initRM ops = true) :
    (memColors (runRM R initRM ops) R).Nodup :=
  (InvRM_run R ops initRM (InvRM_init R) h).colorsNodup

/-- Witness for C7: two joins, a leave, and a re-join on a fresh manager
form a valid trace, and the resulting members' colors are distinct. -/
theorem color_no_collision_witness :
    validTrace "roomZ" initRM
        [RMOp.join "s1" 0, RMOp.join "s2" 0, RMOp.leave "s1", RMOp.join "s3" 0] = true ∧
    (memColors (runRM "roomZ" initRM
        [RMOp.join "s1" 0, RMOp.join "s2" 0, RMOp.leave "s1", RMOp.join "s3" 0])
      "roomZ").Nodup :=
  ⟨by decide, color_no_collision "roomZ"
    [RMOp.join "s1" 0, RMOp.join "s2" 0, RMOp.leave "s1", RMOp.join "s3" 0] (by decide)⟩
